import Mathlib

/-!
Verification development for the `algo` repository: a shallow embedding of
the price caching/merge pipeline (`src/algo/data/prices.py`) and of the
vectorized backtest engine (`src/algo/backtest/engine_fast.py`), together
with theorems settling the specification's claims about them.

Modelling conventions:
* dates/timestamps are integers (a timestamp is a day plus a time-of-day
  component where the distinction matters);
* price and weight values are rationals (`ℚ`), the exact-arithmetic
  idealization of the floats used by the code;
* a pandas DataFrame of bars is a list of `(date, bar)` rows;
* `sort_index` is modelled as a stable sort by date (insertion sort),
  `df[~df.index.duplicated(keep="last")]` as keeping the last row of each
  date.
-/

instance {ε α : Type} [DecidableEq ε] [DecidableEq α] : DecidableEq (Except ε α) := fun x y =>
  match x, y with
  | .ok a, .ok b =>
    if h : a = b then .isTrue (by rw [h]) else .isFalse (fun hh => h (Except.ok.inj hh))
  | .ok _, .error _ => .isFalse (fun h => Except.noConfusion h)
  | .error _, .ok _ => .isFalse (fun h => Except.noConfusion h)
  | .error e, .error f =>
    if h : e = f then .isTrue (by rw [h]) else .isFalse (fun hh => h (Except.error.inj hh))

namespace Algo

/-- One OHLCV row of a per-instrument price DataFrame.  `adjClose` is
`none` for frames that do not carry an `adj_close` column. -/
structure Bar where
  openPx : ℚ
  highPx : ℚ
  lowPx : ℚ
  closePx : ℚ
  volume : ℚ
  adjClose : Option ℚ
deriving DecidableEq, Repr

/-- A per-instrument price DataFrame: rows `(date, bar)` in frame order. -/
abbrev Series := List (Int × Bar)

/-- The rows of `l` whose date is `d`, in order. -/
def filterDate (d : Int) (l : Series) : Series :=
  l.filter (fun x => x.1 = d)

/-- Stable insertion of a row into a list, by date: the new row goes in
front of the first row whose date is `≥` its own. -/
def insertByDate (x : Int × Bar) : Series → Series
  | [] => [x]
  | y :: ys => if x.1 ≤ y.1 then x :: y :: ys else y :: insertByDate x ys

/-- `df.sort_index()`: stable sort of the rows by date. -/
def sortByDate : Series → Series
  | [] => []
  | x :: xs => insertByDate x (sortByDate xs)

/-- `df[~df.index.duplicated(keep="last")]`: keep, for every date, only the
last row carrying that date. -/
def dedupKeepLast : Series → Series
  | [] => []
  | x :: xs =>
    if xs.any (fun y => y.1 = x.1) then dedupKeepLast xs
    else x :: dedupKeepLast xs

/-- `merge_prices` from `src/algo/data/prices.py`: normalize the fresh
frame (sort by date, keep the last row per date); if there is no existing
frame return it, otherwise concatenate existing and fresh, sort by date
(stably, so fresh rows land after existing rows of the same date) and keep
the last row per date. -/
def merge_prices (existing : Option Series) (fresh : Series) : Series :=
  let n := dedupKeepLast (sortByDate fresh)
  match existing with
  | none => n
  | some e => dedupKeepLast (sortByDate (e ++ n))

/-! ## Backtest engine (`src/algo/backtest/engine_fast.py`) -/

/-- A wide price DataFrame (date × asset).  `px` gives the cell value; the
embedding assumes every `(date, asset)` cell inside the frame carries a
value (no missing prices), which is the canonical-dataset shape the engine
is run on. -/
structure PriceFrame where
  dates : List Int
  assets : List String
  px : Int → String → ℚ

/-- A wide weights DataFrame (date × asset). -/
structure WeightsFrame where
  dates : List Int
  assets : List String
  w : Int → String → ℚ

/-- `df.empty` in pandas: true when either axis has length 0. -/
def pandasEmpty (p : PriceFrame) : Bool :=
  p.dates.isEmpty || p.assets.isEmpty

/-- Stable insertion of a date into a date list (for `sort_index`). -/
def insertDate (x : Int) : List Int → List Int
  | [] => [x]
  | y :: ys => if x ≤ y then x :: y :: ys else y :: insertDate x ys

/-- `prices.sort_index()`: stable sort of the date axis. -/
def sortDates : List Int → List Int
  | [] => []
  | x :: xs => insertDate x (sortDates xs)

/-- `prices.loc[start:]` on a sorted index: keep dates `≥ start`; with no
`start_date`, keep everything. -/
def truncFrom (start : Option Int) (l : List Int) : List Int :=
  match start with
  | none => l
  | some s => l.filter (fun d => s ≤ d)

/-- `weights_by_day.reindex(index=prices.index).fillna(0.0)` followed by
`.reindex(columns=prices.columns).fillna(0.0)`: the aligned weight at a
price-frame cell is the weights-frame value when both labels exist there
and `0` otherwise.  (Evaluating only at assets of the price frame is the
column reindex: weight columns absent from prices are dropped.) -/
def alignedW (wf : WeightsFrame) (d : Int) (a : String) : ℚ :=
  if d ∈ wf.dates ∧ a ∈ wf.assets then wf.w d a else 0

/-- The aligned weight rows, one per date of the (sorted, truncated) price
index `ds`. -/
def alignRows (wf : WeightsFrame) (ds : List Int) : List (String → ℚ) :=
  ds.map (fun d a => alignedW wf d a)

/-- `w.shift(1).fillna(0.0)`: every row moves down one position, the first
row becomes all zeros, the last row falls off. -/
def shiftFill (rows : List (String → ℚ)) : List (String → ℚ) :=
  match rows with
  | [] => []
  | _ :: _ => (fun _ => 0) :: rows.dropLast

/-- `prices.pct_change()` along the (sorted, truncated) date index `ds`:
row `0` is undefined (`none`, the all-NaN row), and the row at each later
date `d'` (with predecessor `d` in the index) maps each asset to
`px[d']/px[d] - 1`. -/
def pctChange (p : PriceFrame) (ds : List Int) : List (Option (String → ℚ)) :=
  match ds with
  | [] => []
  | _ :: tl =>
    none :: (List.zip ds tl).map (fun dd => some (fun a => p.px dd.2 a / p.px dd.1 a - 1))

/-- One row of `(rets * w).sum(axis=1)`.  In pandas `NaN * weight = NaN`
and `sum` skips NaN entries (returning `0.0` for an all-NaN row), so the
undefined returns row contributes portfolio return `0`, whatever the
weights. -/
def rowMulSum (assets : List String) (r : Option (String → ℚ)) (wrow : String → ℚ) : ℚ :=
  match r with
  | none => 0
  | some f => (assets.map (fun a => f a * wrow a)).sum

/-- `port_rets = (rets * w).sum(axis=1)` with `w` the aligned-and-shifted
weights.  `port_rets.dropna()` is the identity here: a skipna sum never
produces NaN, so no row is ever dropped. -/
def portRets (p : PriceFrame) (wf : WeightsFrame) (ds : List Int) : List ℚ :=
  List.zipWith (rowMulSum p.assets) (pctChange p ds) (shiftFill (alignRows wf ds))

/-- Running product with accumulator (for `cumprod`). -/
def cumprodFrom (acc : ℚ) : List ℚ → List ℚ
  | [] => []
  | x :: xs => (acc * x) :: cumprodFrom (acc * x) xs

/-- `series.cumprod()`: running products from the left. -/
def cumprod (l : List ℚ) : List ℚ :=
  cumprodFrom 1 l

/-- `run_backtest_fast_daily` from `src/algo/backtest/engine_fast.py`:
reject an empty price frame, sort the date axis, optionally truncate to
dates `≥ start_date`, compute per-asset simple returns, align the weights
to the price axes filling absent cells with `0`, shift the weights down one
row (lookahead guard), take the per-date weighted sum of returns, and
compound `1 + r`.  The result pairs each date of the (sorted, truncated)
index with its equity value. -/
def run_backtest_fast_daily (p : PriceFrame) (wf : WeightsFrame)
    (start : Option Int) : Except String (List (Int × ℚ)) :=
  if pandasEmpty p then .error "prices is empty"
  else
    let ds := truncFrom start (sortDates p.dates)
    .ok (ds.zip (cumprod ((portRets p wf ds).map (fun r => 1 + r))))

/-! ### Concrete frames for the spec's scenarios -/

/-- Price table of the spec's scenario: one instrument `"X"`, prices
100, 110, 121 on dates 0, 1, 2. -/
def scenarioPrices : PriceFrame where
  dates := [0, 1, 2]
  assets := ["X"]
  px := fun d _ => if d = 0 then 100 else if d = 1 then 110 else 121

/-- Weights of the spec's scenario: weight 1 on the first two decision
dates, 0 on the third. -/
def scenarioWeights : WeightsFrame where
  dates := [0, 1, 2]
  assets := ["X"]
  w := fun d _ => if d ≤ 1 then 1 else 0

/-! ## Cache paths and the provider-fallback controller
(`src/algo/data/prices.py`) -/

/-- The two providers (`Provider = Literal["stooq", "yahoo"]`). -/
inductive ProviderT where
  | stooq
  | yahoo
deriving DecidableEq, Repr

def providerName : ProviderT → String
  | .stooq => "stooq"
  | .yahoo => "yahoo"

/-- The unsafe path characters `_asset_key_to_filename` replaces.  The
nine sequential `str.replace` calls each map one character to `_`, and
`_` itself is never a replaced character, so their composition is this
single character-wise map. -/
def sanitizeChar (c : Char) : Char :=
  if c = '/' ∨ c = '\\' ∨ c = ':' ∨ c = '*' ∨ c = '?' ∨ c = '\"' ∨
      c = '<' ∨ c = '>' ∨ c = '|' then '_'
  else c

/-- `_asset_key_to_filename`: replace unsafe path characters by `_`. -/
def _asset_key_to_filename (asset_key : String) : String :=
  ⟨asset_key.data.map sanitizeChar⟩

/-- `raw_cache_path`: `data_dir / "raw_prices" / provider /
f"{filename}.parquet"`, modelled as the path string. -/
def raw_cache_path (provider : ProviderT) (asset_key : String) : String :=
  "data/raw_prices/" ++ providerName provider ++ "/" ++
    _asset_key_to_filename asset_key ++ ".parquet"

/-- `read_cache` against a path-keyed store: absent file gives `none`;
otherwise the loaded frame is re-sorted and deduplicated
(last-occurrence-wins) defensively. -/
def read_cache (cache : String → Option Series) (provider : ProviderT)
    (asset_key : String) : Option Series :=
  (cache (raw_cache_path provider asset_key)).map
    (fun df => dedupKeepLast (sortByDate df))

/-- `write_cache`: persist the frame, re-sorted and deduplicated, at the
instrument's cache path. -/
def write_cache (cache : String → Option Series) (provider : ProviderT)
    (asset_key : String) (df : Series) : String → Option Series :=
  fun path =>
    if path = raw_cache_path provider asset_key then
      some (dedupKeepLast (sortByDate df))
    else cache path

/-- The environment a cache update runs in: the registry's
identifier map, each provider's fetch outcome, whether a write to each
cache file would succeed, and the current cache files keyed by path. -/
structure World where
  hasId : String → ProviderT → Bool
  fetchResult : ProviderT → String → Except String Series
  writeOk : ProviderT → String → Bool
  cache : String → Option Series

/-- `update_cache`: read the existing cache, fetch fresh history (which
may fail), merge, and write back.  A failed write leaves the prior file
untouched, per the Cache Store contract (write is all-or-nothing). -/
def update_cache (w : World) (provider : ProviderT) (asset_key : String) :
    World × Except String Series :=
  match w.fetchResult provider asset_key with
  | .error e => (w, .error e)
  | .ok fresh =>
    let merged := merge_prices (read_cache w.cache provider asset_key) fresh
    if w.writeOk provider asset_key then
      ({w with cache := write_cache w.cache provider asset_key merged},
        .ok merged)
    else (w, .error "write failed")

/-- The failure `_choose_provider_and_update` raises when every candidate
is exhausted, carrying the last underlying error (`none` when no provider
was even attempted). -/
inductive FallbackError where
  | allProvidersFailed (lastErr : Option String)
deriving DecidableEq, Repr

/-- The loop of `_choose_provider_and_update`: skip providers with no
resolvable identifier, return the first successful update, remember the
error of each failed attempt, and fail with `AllProvidersFailed` carrying
the last remembered error once the priority list is exhausted. -/
def chooseLoop (asset_key : String) :
    World → List ProviderT → Option String →
      World × Except FallbackError (ProviderT × Series)
  | w, [], lastErr => (w, .error (.allProvidersFailed lastErr))
  | w, provider :: rest, lastErr =>
    if w.hasId asset_key provider then
      match update_cache w provider asset_key with
      | (w', .ok df) => (w', .ok (provider, df))
      | (w', .error e) => chooseLoop asset_key w' rest (some e)
    else chooseLoop asset_key w rest lastErr

def _choose_provider_and_update (w : World) (asset_key : String)
    (provider_priority : List ProviderT) :
    World × Except FallbackError (ProviderT × Series) :=
  chooseLoop asset_key w provider_priority none

/-- The errors of the attempted (identifier-resolving) providers, in
priority order, as seen from the starting world. -/
def attemptErrors (w : World) (asset_key : String)
    (priority : List ProviderT) : List String :=
  priority.filterMap (fun provider =>
    if w.hasId asset_key provider then
      match (update_cache w provider asset_key).2 with
      | .error e => some e
      | .ok _ => none
    else none)

/-! ## Provider fetchers and canonicalization
(`fetch_stooq_daily`, `fetch_yahoo_daily`, `_canonicalize_ohlcv`) -/

/-- One row of a provider response, after numeric coercion
(`pd.to_numeric(..., errors="coerce")`): a cell is `none` when the source
value was missing or failed to parse.  The timestamp is a day plus a
time-of-day component `tod` (0 = midnight). -/
structure RawRow where
  day : Int
  tod : Nat
  openV : Option ℚ
  highV : Option ℚ
  lowV : Option ℚ
  closeV : Option ℚ
  volumeV : Option ℚ
  adjV : Option ℚ
deriving DecidableEq, Repr

/-- One row of a fetcher's output: `close` is mandatory (rows lacking it
are dropped), the other fields stay optional; `adjV` is populated only by
the yahoo fetcher and only when the response carried an `Adj Close`
column. -/
structure OutRow where
  day : Int
  tod : Nat
  openV : Option ℚ
  highV : Option ℚ
  lowV : Option ℚ
  closeV : ℚ
  volumeV : Option ℚ
  adjV : Option ℚ
deriving DecidableEq, Repr

/-- Timestamp order: by day, then by time-of-day. -/
def tsLeB (r s : RawRow) : Bool :=
  r.day < s.day || (r.day = s.day && r.tod ≤ s.tod)

def insertByTs (x : RawRow) : List RawRow → List RawRow
  | [] => [x]
  | y :: ys => if tsLeB x y then x :: y :: ys else y :: insertByTs x ys

/-- `df.sort_index()` on a timestamp index: stable sort by timestamp. -/
def sortByTs : List RawRow → List RawRow
  | [] => []
  | x :: xs => insertByTs x (sortByTs xs)

/-- `fetch_stooq_daily` after the HTTP fetch and CSV parse: index by the
response timestamps, sort, normalize each timestamp to midnight
(`.normalize()`), coerce the five OHLCV fields, and keep only rows with a
`close`.  Stooq provides no adjusted close. -/
def fetch_stooq_daily (resp : List RawRow) : List OutRow :=
  ((sortByTs resp).map (fun r => {r with tod := 0})).filterMap (fun r =>
    r.closeV.map (fun c =>
      ⟨r.day, r.tod, r.openV, r.highV, r.lowV, c, r.volumeV, none⟩))

/-- `fetch_yahoo_daily` after the download: fail on an empty response,
coerce the numeric fields, take `Adj Close` only when the response has
that column, sort by timestamp (`pd.to_datetime` does not strip the
time-of-day), and keep only rows with a `close`. -/
def fetch_yahoo_daily (resp : List RawRow) (hasAdj : Bool) :
    Except String (List OutRow) :=
  if resp.isEmpty then .error "No Yahoo data"
  else
    .ok ((sortByTs resp).filterMap (fun r =>
      r.closeV.map (fun c =>
        ⟨r.day, r.tod, r.openV, r.highV, r.lowV, c, r.volumeV,
          if hasAdj then r.adjV else none⟩)))

/-- A column of a per-instrument DataFrame, as its cell values in row
order. -/
abbrev Col := List (Option ℚ)

/-- The column view of a per-instrument DataFrame: named columns in frame
order. -/
structure PdFrame where
  cols : List (String × Col)
deriving DecidableEq, Repr

def colNames (df : PdFrame) : List String :=
  df.cols.map Prod.fst

/-- `df[c]`: the first column named `c`, when present. -/
def getCol (df : PdFrame) (c : String) : Option Col :=
  (df.cols.find? (fun x => x.1 = c)).map Prod.snd

/-- The five base OHLCV fields `_canonicalize_ohlcv` requires. -/
def baseCols : List String :=
  ["open", "high", "low", "close", "volume"]

/-- The column view of a stooq fetch: exactly the five base columns. -/
def stooqFrame (rows : List OutRow) : PdFrame :=
  ⟨[("open", rows.map (fun r => r.openV)),
    ("high", rows.map (fun r => r.highV)),
    ("low", rows.map (fun r => r.lowV)),
    ("close", rows.map (fun r => some r.closeV)),
    ("volume", rows.map (fun r => r.volumeV))]⟩

/-- The column view of a yahoo fetch: the five base columns, plus
`adj_close` exactly when the response carried an `Adj Close` column. -/
def yahooFrame (rows : List OutRow) (hasAdj : Bool) : PdFrame :=
  if hasAdj then
    ⟨(stooqFrame rows).cols ++ [("adj_close", rows.map (fun r => r.adjV))]⟩
  else stooqFrame rows

/-- `_canonicalize_ohlcv`: fail with the (ordered) list of missing base
fields if any of the five is absent; otherwise add `adj_close` as a copy
of `close` when not already present, and project exactly the six columns
in canonical order.  (The `getD []` default on `close` is never exercised:
the missing-check guarantees the column exists.) -/
def _canonicalize_ohlcv (df : PdFrame) : Except (List String) PdFrame :=
  let missing := baseCols.filter (fun c => decide (c ∉ colNames df))
  if missing.isEmpty then
    let df' :=
      if "adj_close" ∈ colNames df then df
      else ⟨df.cols ++ [("adj_close", (getCol df "close").getD [])]⟩
    .ok ⟨(baseCols ++ ["adj_close"]).filterMap (fun c =>
      (getCol df' c).map (fun col => (c, col)))⟩
  else .error missing

/-! ### Concrete inputs and spec-side definitions used by the theorems -/

instance : IsAntisymm (Int × Bar) (fun a b => a.1 < b.1) :=
  ⟨fun a b h1 h2 => absurd (lt_trans h1 h2) (lt_irrefl _)⟩

/-- A bar whose five base fields all carry `q`, with no `adj_close`. -/
def mkBar (q : ℚ) : Bar :=
  ⟨q, q, q, q, q, none⟩

/-- A world in which no instrument resolves under any provider. -/
def failWorld : World where
  hasId := fun _ _ => false
  fetchResult := fun _ _ => Except.error "transport"
  writeOk := fun _ _ => false
  cache := fun _ => none

/-- A fetched frame with the five base columns and a single bar. -/
def sampleFrame : PdFrame :=
  ⟨[("open", [some 1]), ("high", [some 1]), ("low", [some 1]),
    ("close", [some 1]), ("volume", [some 1])]⟩

/-- The canonical form of `sampleFrame`: the six columns with `adj_close`
copied from `close`. -/
def sampleOut : PdFrame :=
  ⟨[("open", [some 1]), ("high", [some 1]), ("low", [some 1]),
    ("close", [some 1]), ("volume", [some 1]), ("adj_close", [some 1])]⟩

/-- The portfolio-return sequence the spec describes for the engine, along
the (sorted, truncated) date index `ds`: the first date, having no prior
decision, earns `0`; each later step `ds[j] → ds[j+1]` earns, summed over
the price table's instruments, the return realized over that step times
the weight recorded at decision date `ds[j]`, where a date/instrument cell
absent from the weights matrix is read as weight `0` (instruments the
weights matrix has but the price table lacks never enter the sum). -/
def specPortRet (p : PriceFrame) (wf : WeightsFrame) (ds : List Int) : Nat → ℚ
  | 0 => 0
  | j + 1 =>
    (p.assets.map (fun a =>
      (p.px (ds.getD (j + 1) 0) a / p.px (ds.getD j 0) a - 1) *
        (if ds.getD j 0 ∈ wf.dates ∧ a ∈ wf.assets then wf.w (ds.getD j 0) a
         else 0))).sum

/-- Zero out the weights-matrix row at date `t` (the frame keeps its date
and instrument axes; only the stored row becomes all zeros). -/
def zeroRowAt (wf : WeightsFrame) (t : Int) : WeightsFrame :=
  { wf with w := fun d a => if d = t then 0 else wf.w d a }

/-- Price table with one instrument rising 10% on each of three steps
(dates 0..3). -/
def cexPrices : PriceFrame where
  dates := [0, 1, 2, 3]
  assets := ["X"]
  px := fun d _ =>
    if d = 0 then 100 else if d = 1 then 110 else if d = 2 then 121
    else 1331/10

/-- Weights matrix holding weight 1 on every date. -/
def cexWeights : WeightsFrame where
  dates := [0, 1, 2, 3]
  assets := ["X"]
  w := fun _ _ => 1

/-! ## Basic lemmas about the date-axis sort -/

theorem mem_insertDate {x y : Int} {l : List Int} :
    y ∈ insertDate x l ↔ y = x ∨ y ∈ l := by
  induction l with
  | nil => simp [insertDate]
  | cons z zs ih =>
    by_cases h : x ≤ z
    · simp [insertDate, h]
    · simp [insertDate, h, ih]
      tauto

theorem mem_sortDates {y : Int} {l : List Int} : y ∈ sortDates l ↔ y ∈ l := by
  induction l with
  | nil => simp [sortDates]
  | cons z zs ih => simp [sortDates, mem_insertDate, ih]

theorem length_sortDates (l : List Int) : (sortDates l).length = l.length := by
  induction l with
  | nil => rfl
  | cons z zs ih =>
    have h : ∀ (x : Int) (m : List Int), (insertDate x m).length = m.length + 1 := by
      intro x m
      induction m with
      | nil => rfl
      | cons w ws ihm =>
        by_cases h : x ≤ w <;> simp [insertDate, h, ihm]
    simp [sortDates, h, ih]

theorem sorted_insertDate {x : Int} {l : List Int} (h : l.Sorted (· ≤ ·)) :
    (insertDate x l).Sorted (· ≤ ·) := by
  induction l with
  | nil => simp [insertDate]
  | cons z zs ih =>
    by_cases hx : x ≤ z
    · rw [insertDate, if_pos hx]
      refine List.sorted_cons.2 ⟨?_, h⟩
      intro b hb
      rcases List.mem_cons.1 hb with rfl | hb
      · exact hx
      · exact le_trans hx ((List.sorted_cons.1 h).1 b hb)
    · rw [insertDate, if_neg hx]
      rcases List.sorted_cons.1 h with ⟨hz, hzs⟩
      refine List.sorted_cons.2 ⟨?_, ih hzs⟩
      intro b hb
      rcases mem_insertDate.1 hb with rfl | hb
      · exact le_of_not_le hx
      · exact hz b hb

theorem sorted_sortDates (l : List Int) : (sortDates l).Sorted (· ≤ ·) := by
  induction l with
  | nil => simp [sortDates]
  | cons z zs ih => exact sorted_insertDate ih

/-! ## Lemmas about the merge engine -/

theorem mem_filterDate {d : Int} {x : Int × Bar} {l : Series} :
    x ∈ filterDate d l ↔ x ∈ l ∧ x.1 = d := by
  simp [filterDate, List.mem_filter]

theorem filterDate_append (d : Int) (l₁ l₂ : Series) :
    filterDate d (l₁ ++ l₂) = filterDate d l₁ ++ filterDate d l₂ := by
  simp [filterDate, List.filter_append]

/-- Stability of the insertion step: inserting a row by date never
reorders the rows of any one date, and puts the new row in front of the
old rows of its own date. -/
theorem filterDate_insertByDate (d : Int) (x : Int × Bar) (l : Series) :
    filterDate d (insertByDate x l) = filterDate d (x :: l) := by
  induction l with
  | nil => rfl
  | cons y ys ih =>
    by_cases hle : x.1 ≤ y.1
    · rw [insertByDate, if_pos hle]
    · rw [insertByDate, if_neg hle]
      by_cases hx : x.1 = d
      · have hy : ¬ y.1 = d := by omega
        simp [filterDate, List.filter_cons, hx, hy] at ih ⊢
        exact ih
      · simp [filterDate, List.filter_cons, hx] at ih ⊢
        by_cases hy : y.1 = d <;> simp [hy, ih]

/-- Stability of the sort: sorting by date preserves the relative order of
the rows of every single date. -/
theorem filterDate_sortByDate (d : Int) (l : Series) :
    filterDate d (sortByDate l) = filterDate d l := by
  induction l with
  | nil => rfl
  | cons x xs ih =>
    rw [sortByDate, filterDate_insertByDate]
    by_cases hx : x.1 = d <;> simp [filterDate, List.filter_cons, hx] at ih ⊢ <;>
      exact ih

theorem filterDate_cons (d : Int) (x : Int × Bar) (l : Series) :
    filterDate d (x :: l) =
      if x.1 = d then x :: filterDate d l else filterDate d l := by
  simp only [filterDate, List.filter_cons]
  by_cases hx : x.1 = d <;> simp [hx]

theorem dedupKeepLast_sublist (l : Series) : (dedupKeepLast l).Sublist l := by
  induction l with
  | nil => simp [dedupKeepLast]
  | cons x xs ih =>
    rw [dedupKeepLast]
    by_cases h : (xs.any (fun y => y.1 = x.1)) = true
    · rw [if_pos h]
      exact ih.cons x
    · rw [if_neg h]
      exact ih.cons₂ x

theorem filterDate_eq_nil_of_sublist {d : Int} {l₁ l₂ : Series}
    (hs : l₁.Sublist l₂) (h : filterDate d l₂ = []) : filterDate d l₁ = [] := by
  have := hs.filter (fun y => decide (y.1 = d))
  rw [show List.filter (fun y => decide (y.1 = d)) l₂ = filterDate d l₂ from rfl,
    h] at this
  exact List.sublist_nil.1 this

/-- Deduplication keeps exactly the last row of every date. -/
theorem filterDate_dedupKeepLast (d : Int) (l : Series) :
    filterDate d (dedupKeepLast l) = ((filterDate d l).getLast?).toList := by
  induction l with
  | nil => rfl
  | cons x xs ih =>
    rw [dedupKeepLast]
    by_cases h : (xs.any (fun y => y.1 = x.1)) = true
    · rw [if_pos h, filterDate_cons]
      by_cases hx : x.1 = d
      · have hne : filterDate d xs ≠ [] := by
          rcases List.any_eq_true.1 h with ⟨y, hy, hyd⟩
          have hy1 : y.1 = x.1 := by simpa using hyd
          exact List.ne_nil_of_mem (mem_filterDate.2 ⟨hy, by omega⟩)
        rw [if_pos hx, ih]
        rcases List.exists_cons_of_ne_nil hne with ⟨a, A, hA⟩
        rw [hA, List.getLast?_cons_cons]
      · rw [if_neg hx]
        exact ih
    · rw [if_neg h, filterDate_cons, filterDate_cons]
      by_cases hx : x.1 = d
      · have hnil : filterDate d xs = [] := by
          rw [filterDate, List.filter_eq_nil_iff]
          intro y hy
          simp only [decide_eq_true_eq]
          intro hyd
          refine h (List.any_eq_true.2 ⟨y, hy, ?_⟩)
          simp only [decide_eq_true_eq]
          omega
        have hnil' : filterDate d (dedupKeepLast xs) = [] :=
          filterDate_eq_nil_of_sublist (dedupKeepLast_sublist xs) hnil
        rw [if_pos hx, if_pos hx, hnil, hnil']
        rfl
      · rw [if_neg hx, if_neg hx]
        exact ih

theorem mem_insertByDate {x y : Int × Bar} {l : Series} :
    y ∈ insertByDate x l ↔ y = x ∨ y ∈ l := by
  induction l with
  | nil => simp [insertByDate]
  | cons z zs ih =>
    by_cases h : x.1 ≤ z.1
    · rw [insertByDate, if_pos h]
      simp
    · rw [insertByDate, if_neg h]
      simp [ih]
      tauto

theorem pairwiseLe_insertByDate {x : Int × Bar} {l : Series}
    (h : l.Pairwise (fun a b => a.1 ≤ b.1)) :
    (insertByDate x l).Pairwise (fun a b => a.1 ≤ b.1) := by
  induction l with
  | nil => simp [insertByDate]
  | cons z zs ih =>
    rcases List.pairwise_cons.1 h with ⟨hz, hzs⟩
    by_cases hx : x.1 ≤ z.1
    · rw [insertByDate, if_pos hx]
      refine List.pairwise_cons.2 ⟨?_, h⟩
      intro b hb
      rcases List.mem_cons.1 hb with rfl | hb
      · exact hx
      · exact le_trans hx (hz b hb)
    · rw [insertByDate, if_neg hx]
      refine List.pairwise_cons.2 ⟨?_, ih hzs⟩
      intro b hb
      rcases mem_insertByDate.1 hb with rfl | hb
      · omega
      · exact hz b hb

theorem pairwiseLe_sortByDate (l : Series) :
    (sortByDate l).Pairwise (fun a b => a.1 ≤ b.1) := by
  induction l with
  | nil => simp [sortByDate]
  | cons x xs ih => exact pairwiseLe_insertByDate ih

theorem mem_dates_iff_filterDate {d : Int} {l : Series} :
    d ∈ l.map Prod.fst ↔ filterDate d l ≠ [] := by
  constructor
  · intro h
    rcases List.mem_map.1 h with ⟨x, hx, hxd⟩
    exact List.ne_nil_of_mem (mem_filterDate.2 ⟨hx, hxd⟩)
  · intro h
    rcases List.exists_mem_of_ne_nil _ h with ⟨x, hx⟩
    rcases mem_filterDate.1 hx with ⟨hxl, hxd⟩
    exact List.mem_map.2 ⟨x, hxl, hxd⟩

theorem nodupDates_dedupKeepLast (l : Series) :
    ((dedupKeepLast l).map Prod.fst).Nodup := by
  induction l with
  | nil => simp [dedupKeepLast]
  | cons x xs ih =>
    rw [dedupKeepLast]
    by_cases h : (xs.any (fun y => y.1 = x.1)) = true
    · rw [if_pos h]
      exact ih
    · rw [if_neg h]
      refine List.nodup_cons.2 ⟨?_, ih⟩
      intro hmem
      rcases List.mem_map.1 hmem with ⟨y, hy, hyd⟩
      have hy' : y ∈ xs := (dedupKeepLast_sublist xs).mem hy
      refine h (List.any_eq_true.2 ⟨y, hy', ?_⟩)
      simp only [decide_eq_true_eq]
      omega

/-- The output of normalizing any frame (sort then keep-last dedup) has
strictly increasing dates. -/
theorem pairwiseLt_normalize (l : Series) :
    ((dedupKeepLast (sortByDate l)).map Prod.fst).Pairwise (· < ·) := by
  have hle : (dedupKeepLast (sortByDate l)).Pairwise (fun a b => a.1 ≤ b.1) :=
    (pairwiseLe_sortByDate l).sublist (dedupKeepLast_sublist _)
  have hne := (List.pairwise_map).1 (nodupDates_dedupKeepLast (sortByDate l))
  refine (List.pairwise_map).2 ?_
  exact (hle.and hne).imp (fun h => lt_of_le_of_ne h.1 h.2)

theorem getLast?_toList_eq_nil_iff (L : Series) :
    ((L.getLast?).toList = []) ↔ L = [] := by
  cases L with
  | nil => simp
  | cons a A =>
    simp only [iff_false, ne_eq, reduceCtorEq, List.cons_ne_nil]
    intro h
    have := List.getLast?_isSome.2 (List.cons_ne_nil a A)
    rcases Option.isSome_iff_exists.1 this with ⟨b, hb⟩
    rw [hb] at h
    simp at h

/-- The rows of `merge_prices (some e) f` at date `d`: the last `d`-row of
`e` followed by the last `d`-row of `f`, keeping only the final one. -/
theorem filterDate_merge_some (d : Int) (e f : Series) :
    filterDate d (merge_prices (some e) f) =
      (((filterDate d e) ++ ((filterDate d f).getLast?).toList).getLast?).toList := by
  show filterDate d (dedupKeepLast (sortByDate (e ++ dedupKeepLast (sortByDate f)))) = _
  rw [filterDate_dedupKeepLast, filterDate_sortByDate, filterDate_append,
    filterDate_dedupKeepLast, filterDate_sortByDate]

theorem filterDate_merge_none (d : Int) (f : Series) :
    filterDate d (merge_prices none f) = ((filterDate d f).getLast?).toList := by
  show filterDate d (dedupKeepLast (sortByDate f)) = _
  rw [filterDate_dedupKeepLast, filterDate_sortByDate]

/-- In a series with date-unique rows, the rows at the date of a member
row are exactly that row. -/
theorem filterDate_of_nodupDates {l : Series} {d : Int} {x : Bar}
    (hnd : (l.map Prod.fst).Nodup) (hmem : (d, x) ∈ l) :
    filterDate d l = [(d, x)] := by
  induction l with
  | nil => simp at hmem
  | cons y ys ih =>
    rw [List.map_cons] at hnd
    rcases List.nodup_cons.1 hnd with ⟨hy, hys⟩
    rcases List.mem_cons.1 hmem with rfl | hmem'
    · rw [filterDate_cons, if_pos rfl]
      have : filterDate d ys = [] := by
        by_contra hne
        exact hy (mem_dates_iff_filterDate.2 hne)
      rw [this]
    · have hyd : y.1 ≠ d := by
        intro heq
        exact hy (heq ▸ List.mem_map.2 ⟨(d, x), hmem', rfl⟩)
      rw [filterDate_cons, if_neg hyd]
      exact ih hys hmem'

theorem mem_of_getLast?_eq {l : Series} {x : Int × Bar}
    (h : l.getLast? = some x) : x ∈ l := by
  induction l with
  | nil => simp at h
  | cons a A ih =>
    cases A with
    | nil =>
      simp only [List.getLast?_singleton, Option.some.injEq] at h
      simp [h]
    | cons b B =>
      rw [List.getLast?_cons_cons] at h
      exact List.mem_cons_of_mem a (ih h)

/-- Strictly increasing dates for every merge output. -/
theorem pairwiseLt_merge (e : Option Series) (f : Series) :
    ((merge_prices e f).map Prod.fst).Pairwise (· < ·) := by
  cases e with
  | none => exact pairwiseLt_normalize f
  | some ex => exact pairwiseLt_normalize (ex ++ dedupKeepLast (sortByDate f))

theorem nodupDates_merge (e : Option Series) (f : Series) :
    ((merge_prices e f).map Prod.fst).Nodup :=
  (pairwiseLt_merge e f).imp ne_of_lt

/-- At a date the fresh series covers, the merge output carries exactly
the fresh series' last bar for that date. -/
theorem filterDate_merge_of_mem_fresh (e : Option Series) (f : Series) (d : Int)
    (hne : filterDate d f ≠ []) :
    filterDate d (merge_prices e f) = ((filterDate d f).getLast?).toList := by
  cases e with
  | none => exact filterDate_merge_none d f
  | some ex =>
    rw [filterDate_merge_some]
    cases hB : (filterDate d f).getLast? with
    | none => exact absurd (List.getLast?_eq_none_iff.1 hB) hne
    | some b =>
      simp only [Option.toList_some]
      rw [List.getLast?_concat]
      rfl

theorem filterDate_short_of_nodupDates {l : Series}
    (hnd : (l.map Prod.fst).Nodup) (d : Int) :
    filterDate d l = [] ∨ ∃ x, filterDate d l = [x] := by
  by_cases hfd : filterDate d l = []
  · exact Or.inl hfd
  · right
    rcases List.exists_mem_of_ne_nil _ hfd with ⟨x, hx⟩
    rcases mem_filterDate.1 hx with ⟨hxl, hxd⟩
    have hxl' : (d, x.2) ∈ l := by
      rw [← hxd, Prod.mk.eta]
      exact hxl
    exact ⟨(d, x.2), filterDate_of_nodupDates hnd hxl'⟩

theorem getLast?_toList_of_short {l : Series}
    (h : l = [] ∨ ∃ x, l = [x]) : (l.getLast?).toList = l := by
  rcases h with rfl | ⟨x, rfl⟩ <;> simp

/-- Re-merging the same fresh series changes nothing at any date. -/
theorem filterDate_merge_self (e : Option Series) (f : Series) (d : Int) :
    filterDate d (merge_prices (some (merge_prices e f)) f) =
      filterDate d (merge_prices e f) := by
  rw [filterDate_merge_some]
  cases hB : (filterDate d f).getLast? with
  | none =>
    simp only [Option.toList_none, List.append_nil]
    exact getLast?_toList_of_short
      (filterDate_short_of_nodupDates (nodupDates_merge e f) d)
  | some b =>
    have hne : filterDate d f ≠ [] := by
      intro h
      rw [h] at hB
      simp at hB
    have hm : filterDate d (merge_prices e f) = [b] := by
      rw [filterDate_merge_of_mem_fresh e f d hne, hB]
      rfl
    rw [hm]
    simp

/-! ## Claim C4 -/

/-- C4.  For every existing series (possibly absent) and every fresh
series, `merge_prices` returns a series whose dates are strictly
increasing (hence duplicate-free); whose date set is exactly the union of
the two inputs' date sets; in which every date of the fresh series carries
exactly the fresh series' last bar for that date; and in which bars of a
date-unique existing series at dates outside the fresh series are
preserved unchanged. -/
theorem C4_merge_prices_correct (e : Option Series) (f : Series) :
    (((merge_prices e f).map Prod.fst).Pairwise (· < ·)) ∧
    (∀ d : Int, d ∈ (merge_prices e f).map Prod.fst ↔
      ((∃ ex, e = some ex ∧ d ∈ ex.map Prod.fst) ∨ d ∈ f.map Prod.fst)) ∧
    (∀ d : Int, d ∈ f.map Prod.fst →
      filterDate d (merge_prices e f) = ((filterDate d f).getLast?).toList) ∧
    (∀ (d : Int) (x : Bar) (ex : Series), e = some ex →
      (ex.map Prod.fst).Nodup → d ∉ f.map Prod.fst →
      ((d, x) ∈ merge_prices e f ↔ (d, x) ∈ ex)) := by
  refine ⟨pairwiseLt_merge e f, ?_, ?_, ?_⟩
  · intro d
    rw [mem_dates_iff_filterDate]
    cases e with
    | none =>
      rw [filterDate_merge_none, ne_eq, getLast?_toList_eq_nil_iff]
      constructor
      · intro h
        exact Or.inr (mem_dates_iff_filterDate.2 h)
      · rintro (⟨ex, hex, _⟩ | h)
        · simp at hex
        · exact mem_dates_iff_filterDate.1 h
    | some ex =>
      rw [filterDate_merge_some, ne_eq, getLast?_toList_eq_nil_iff,
        List.append_eq_nil, not_and_or, getLast?_toList_eq_nil_iff]
      constructor
      · rintro (h | h)
        · exact Or.inl ⟨ex, rfl, mem_dates_iff_filterDate.2 h⟩
        · exact Or.inr (mem_dates_iff_filterDate.2 h)
      · rintro (⟨ex', hex, h⟩ | h)
        · cases hex
          exact Or.inl (mem_dates_iff_filterDate.1 h)
        · exact Or.inr (mem_dates_iff_filterDate.1 h)
  · intro d hd
    exact filterDate_merge_of_mem_fresh e f d (mem_dates_iff_filterDate.1 hd)
  · intro d x ex hex hnd hdf
    cases hex
    have hBnil : ((filterDate d f).getLast?).toList = [] := by
      rw [getLast?_toList_eq_nil_iff]
      by_contra hne
      exact hdf (mem_dates_iff_filterDate.2 hne)
    have hfd : filterDate d (merge_prices (some ex) f) =
        ((filterDate d ex).getLast?).toList := by
      rw [filterDate_merge_some, hBnil, List.append_nil]
    constructor
    · intro hmem
      have : (d, x) ∈ filterDate d (merge_prices (some ex) f) :=
        mem_filterDate.2 ⟨hmem, rfl⟩
      rw [hfd] at this
      cases hL : (filterDate d ex).getLast? with
      | none =>
        rw [hL] at this
        simp at this
      | some b =>
        rw [hL] at this
        simp only [Option.toList_some, List.mem_singleton] at this
        cases this
        exact (mem_filterDate.1 (mem_of_getLast?_eq hL)).1
    · intro hmem
      have hfe : filterDate d ex = [(d, x)] := filterDate_of_nodupDates hnd hmem
      have : (d, x) ∈ filterDate d (merge_prices (some ex) f) := by
        rw [hfd, hfe]
        simp
      exact (mem_filterDate.1 this).1

/-- Witness for C4 at concrete series: the merge of an existing series
with bars at dates 1 and 3 and a fresh series with bars at dates 1 and 2
carries the fresh bar at the shared date 1. -/
theorem C4_witness :
    filterDate 1 (merge_prices (some [(1, mkBar 1), (3, mkBar 3)])
      [(1, mkBar 2), (2, mkBar 9)]) = [(1, mkBar 2)] := by
  have h := (C4_merge_prices_correct (some [(1, mkBar 1), (3, mkBar 3)])
    [(1, mkBar 2), (2, mkBar 9)]).2.2.1 1 (by simp)
  rw [h]
  rfl

/-! ## Claim C5 -/

/-- C5.  The merge laws: merging a non-empty fresh series into an absent
cache yields the fresh series sorted by date with only the last bar per
date kept; and re-merging the same fresh series is a no-op
(`merge (merge e f) f = merge e f`). -/
theorem C5_merge_laws :
    (∀ a : Series, a ≠ [] →
      merge_prices none a = dedupKeepLast (sortByDate a)) ∧
    (∀ (e : Option Series) (f : Series),
      merge_prices (some (merge_prices e f)) f = merge_prices e f) := by
  constructor
  · intro a _
    rfl
  · intro e f
    have n1 : (merge_prices (some (merge_prices e f)) f).Nodup :=
      (nodupDates_merge (some (merge_prices e f)) f).of_map
    have n2 : (merge_prices e f).Nodup := (nodupDates_merge e f).of_map
    have hmem : ∀ x, x ∈ merge_prices (some (merge_prices e f)) f ↔
        x ∈ merge_prices e f := by
      intro x
      have h1 : ∀ l : Series, x ∈ l ↔ x ∈ filterDate x.1 l := by
        intro l
        rw [mem_filterDate]
        simp
      rw [h1, filterDate_merge_self, ← h1]
    have hperm := (List.perm_ext_iff_of_nodup n1 n2).2 hmem
    exact List.eq_of_perm_of_sorted hperm
      ((List.pairwise_map).1 (pairwiseLt_merge (some (merge_prices e f)) f))
      ((List.pairwise_map).1 (pairwiseLt_merge e f))

/-- Witness for C5 on a concrete non-empty series. -/
theorem C5_witness :
    merge_prices none [(2, mkBar 5), (1, mkBar 4)] =
      dedupKeepLast (sortByDate [(2, mkBar 5), (1, mkBar 4)]) :=
  C5_merge_laws.1 [(2, mkBar 5), (1, mkBar 4)] (by simp)

/-! ## Claim C6 -/

theorem update_cache_of_error {w : World} {prov : ProviderT} {key : String}
    {e : String} (h : (update_cache w prov key).2 = Except.error e) :
    update_cache w prov key = (w, Except.error e) := by
  cases hf : w.fetchResult prov key with
  | error e' =>
    simp only [update_cache, hf] at h ⊢
    simp only [Except.error.injEq] at h
    rw [h]
  | ok fresh =>
    by_cases hw : w.writeOk prov key = true
    · simp [update_cache, hf, hw] at h
    · simp only [update_cache, hf, if_neg hw] at h ⊢
      simp only [Except.error.injEq] at h
      rw [h]

theorem getLast?_cons_or (e : String) (l : List String) (acc : Option String) :
    (((e :: l).getLast?).or acc) = ((l.getLast?).or (some e)) := by
  cases l with
  | nil => rfl
  | cons x xs =>
    rw [List.getLast?_cons_cons]
    cases hg : (x :: xs).getLast? with
    | none => exact absurd (List.getLast?_eq_none_iff.1 hg) (by simp)
    | some v => rfl

/-- When every provider in the priority list is skipped or fails, the
fallback loop leaves the world untouched and reports the last error seen
(or the accumulator when nothing was attempted). -/
theorem chooseLoop_all_fail (asset_key : String) :
    ∀ (priority : List ProviderT) (w : World) (acc : Option String),
      (∀ prov ∈ priority, w.hasId asset_key prov = false ∨
        ∃ e, (update_cache w prov asset_key).2 = Except.error e) →
      chooseLoop asset_key w priority acc =
        (w, .error (.allProvidersFailed
          (((attemptErrors w asset_key priority).getLast?).or acc))) := by
  intro priority
  induction priority with
  | nil =>
    intro w acc _
    simp [chooseLoop, attemptErrors]
  | cons prov rest ih =>
    intro w acc H
    by_cases hid : w.hasId asset_key prov = true
    · have herr : ∃ e, (update_cache w prov asset_key).2 = Except.error e := by
        rcases H prov (List.mem_cons_self _ _) with h | h
        · rw [h] at hid
          exact absurd hid (by simp)
        · exact h
      rcases herr with ⟨e, herr⟩
      have hup := update_cache_of_error herr
      rw [chooseLoop, if_pos hid, hup]
      show chooseLoop asset_key w rest (some e) = _
      rw [ih w (some e) (fun q hq => H q (List.mem_cons_of_mem _ hq))]
      have hA : attemptErrors w asset_key (prov :: rest) =
          e :: attemptErrors w asset_key rest := by
        simp [attemptErrors, List.filterMap_cons, hid, herr]
      rw [hA, getLast?_cons_or]
    · have hid' : w.hasId asset_key prov = false := by simpa using hid
      rw [chooseLoop, if_neg hid]
      rw [ih w acc (fun q hq => H q (List.mem_cons_of_mem _ hq))]
      have hA : attemptErrors w asset_key (prov :: rest) =
          attemptErrors w asset_key rest := by
        simp [attemptErrors, List.filterMap_cons, hid']
      rw [hA]

/-- C6.  If every provider in the priority list either has no resolvable
identifier for the instrument or fails during fetch/merge/write, the
fallback update fails with `AllProvidersFailed` carrying the last
underlying error, and the world — in particular every cache file — is
exactly as it was before the attempt; in particular an instrument with no
resolvable identifier under any provider fails with `AllProvidersFailed`
(carrying no underlying error). -/
theorem C6_fallback_exhaustion (w : World) (asset_key : String)
    (priority : List ProviderT) :
    ((∀ prov ∈ priority, w.hasId asset_key prov = false ∨
        ∃ e, (update_cache w prov asset_key).2 = Except.error e) →
      _choose_provider_and_update w asset_key priority =
        (w, .error (.allProvidersFailed
          ((attemptErrors w asset_key priority).getLast?)))) ∧
    ((∀ prov ∈ priority, w.hasId asset_key prov = false) →
      _choose_provider_and_update w asset_key priority =
        (w, .error (.allProvidersFailed none))) := by
  constructor
  · intro H
    rw [_choose_provider_and_update, chooseLoop_all_fail asset_key priority w none H,
      Option.or_none]
  · intro H
    rw [_choose_provider_and_update, chooseLoop_all_fail asset_key priority w none
      (fun q hq => Or.inl (H q hq))]
    have hA : attemptErrors w asset_key priority = [] := by
      rw [attemptErrors, List.filterMap_eq_nil_iff]
      intro prov hprov
      simp [H prov hprov]
    rw [hA]
    rfl

/-- Witness for C6: with no resolvable identifiers, the update fails with
`AllProvidersFailed` and the world is unchanged. -/
theorem C6_witness :
    _choose_provider_and_update failWorld "spy"
      [ProviderT.stooq, ProviderT.yahoo] =
      (failWorld, .error (.allProvidersFailed none)) :=
  (C6_fallback_exhaustion failWorld "spy" [ProviderT.stooq, ProviderT.yahoo]).2
    (fun prov _ => rfl)

/-! ## Claim C9 -/

/-- C9.  The cache filename sanitization is not injective: the distinct
instrument keys `"a/b"` and `"a_b"` map to the same cache path under the
same provider, so their cached series alias one on-disk file: a write for
`"a/b"` is read back verbatim under `"a_b"` (the read re-sorts and
re-deduplicates what the write stored). -/
theorem C9_filename_aliasing :
    ("a/b" : String) ≠ "a_b" ∧
    raw_cache_path ProviderT.stooq "a/b" = raw_cache_path ProviderT.stooq "a_b" ∧
    (∀ (cache : String → Option Series) (s : Series),
      read_cache (write_cache cache ProviderT.stooq "a/b" s)
        ProviderT.stooq "a_b" =
        some (dedupKeepLast (sortByDate (dedupKeepLast (sortByDate s))))) := by
  refine ⟨by decide, by decide, ?_⟩
  intro cache s
  rw [read_cache, write_cache]
  rw [if_pos (by decide)]
  rfl

/-! ## Claim C8 -/

theorem tsLeB_of_not {x y : RawRow} (h : ¬ tsLeB x y = true) :
    tsLeB y x = true := by
  simp [tsLeB] at h ⊢
  omega

theorem insertByTs_perm (x : RawRow) (l : List RawRow) :
    (insertByTs x l).Perm (x :: l) := by
  induction l with
  | nil => exact List.Perm.refl _
  | cons y ys ih =>
    by_cases h : tsLeB x y = true
    · rw [insertByTs, if_pos h]
    · rw [insertByTs, if_neg h]
      exact (ih.cons y).trans (List.Perm.swap x y ys)

theorem sortByTs_perm (l : List RawRow) : (sortByTs l).Perm l := by
  induction l with
  | nil => exact List.Perm.refl _
  | cons x xs ih =>
    rw [sortByTs]
    exact (insertByTs_perm x (sortByTs xs)).trans (ih.cons x)

theorem mem_insertByTs {x y : RawRow} {l : List RawRow} :
    y ∈ insertByTs x l ↔ y = x ∨ y ∈ l := by
  constructor
  · intro h
    have := (insertByTs_perm x l).mem_iff.1 h
    simpa using this
  · intro h
    refine (insertByTs_perm x l).mem_iff.2 ?_
    simpa using h

theorem pairwise_insertByTs {x : RawRow} {l : List RawRow}
    (h : l.Pairwise (fun r s => tsLeB r s = true)) :
    (insertByTs x l).Pairwise (fun r s => tsLeB r s = true) := by
  induction l with
  | nil => simp [insertByTs]
  | cons y ys ih =>
    rcases List.pairwise_cons.1 h with ⟨hy, hys⟩
    by_cases hx : tsLeB x y = true
    · rw [insertByTs, if_pos hx]
      refine List.pairwise_cons.2 ⟨?_, h⟩
      intro b hb
      rcases List.mem_cons.1 hb with rfl | hb
      · exact hx
      · have := hy b hb
        simp [tsLeB] at hx this ⊢
        omega
    · rw [insertByTs, if_neg hx]
      refine List.pairwise_cons.2 ⟨?_, ih hys⟩
      intro b hb
      rcases mem_insertByTs.1 hb with rfl | hb
      · exact tsLeB_of_not hx
      · exact hy b hb

theorem pairwise_sortByTs (l : List RawRow) :
    (sortByTs l).Pairwise (fun r s => tsLeB r s = true) := by
  induction l with
  | nil => simp [sortByTs]
  | cons x xs ih => exact pairwise_insertByTs ih

theorem length_filterMap_closeV (f : RawRow → Option OutRow)
    (hf : ∀ r : RawRow, (f r).isSome = r.closeV.isSome) (l : List RawRow) :
    (l.filterMap f).length = (l.filter (fun r => r.closeV.isSome)).length := by
  induction l with
  | nil => rfl
  | cons r rs ih =>
    rw [List.filterMap_cons, List.filter_cons]
    cases hc : r.closeV with
    | none =>
      have hnone : f r = none := by
        refine Option.not_isSome_iff_eq_none.1 ?_
        rw [hf r, hc]
        simp
      rw [hnone]
      simp [hc, ih]
    | some c =>
      have hsome : (f r).isSome = true := by
        rw [hf r, hc]
        rfl
      rcases Option.isSome_iff_exists.1 hsome with ⟨v, hv⟩
      rw [hv]
      simp [hc, ih]

/-- C8, counterexample to the claim as stated.  A yahoo response whose
single bar carries time-of-day 5 is returned with that time-of-day
intact: `pd.to_datetime` without `.normalize()` does not produce a
date-only key, so the yahoo variant violates the normalization rule the
claim asserts for every provider variant. -/
theorem C8_counterexample :
    fetch_yahoo_daily [⟨0, 5, none, none, none, some 1, none, none⟩] false =
      .ok [⟨0, 5, none, none, none, 1, none, none⟩] ∧ (5 : Nat) ≠ 0 :=
  ⟨rfl, by decide⟩

/-- C8, amended.  Both fetchers work on numerically coerced cells, drop
every bar lacking a `close`, and sort ascending; the stooq fetcher
additionally normalizes every date to a date-only (midnight) key, while
the yahoo fetcher returns the response's timestamps unchanged,
time-of-day included. -/
theorem C8_fetcher_normalization (resp : List RawRow) (hasAdj : Bool) :
    ((fetch_stooq_daily resp).Pairwise (fun r s => r.day ≤ s.day)) ∧
    (∀ r ∈ fetch_stooq_daily resp, r.tod = 0) ∧
    ((fetch_stooq_daily resp).length =
      (resp.filter (fun r => r.closeV.isSome)).length) ∧
    (∀ out, fetch_yahoo_daily resp hasAdj = .ok out →
      out.Pairwise (fun r s =>
        r.day < s.day ∨ (r.day = s.day ∧ r.tod ≤ s.tod)) ∧
      (∀ r ∈ out, (r.day, r.tod) ∈ resp.map (fun x => (x.day, x.tod))) ∧
      out.length = (resp.filter (fun r => r.closeV.isSome)).length) := by
  refine ⟨?_, ?_, ?_, ?_⟩
  · rw [fetch_stooq_daily, List.pairwise_filterMap]
    rw [List.pairwise_map]
    have hs := pairwise_sortByTs resp
    refine hs.imp ?_
    intro r s hrs b hb b' hb'
    cases hcr : r.closeV with
    | none => rw [hcr] at hb; simp at hb
    | some c =>
      cases hcs : s.closeV with
      | none => rw [hcs] at hb'; simp at hb'
      | some c' =>
        rw [hcr] at hb
        rw [hcs] at hb'
        simp only [Option.map_some', Option.mem_def, Option.some.injEq] at hb hb'
        rw [← hb, ← hb']
        dsimp only
        simp [tsLeB] at hrs
        omega
  · intro r hr
    rw [fetch_stooq_daily] at hr
    rcases List.mem_filterMap.1 hr with ⟨a, ha, hfa⟩
    rcases List.mem_map.1 ha with ⟨raw, _hraw, hmap⟩
    cases hc : a.closeV with
    | none => rw [hc] at hfa; simp at hfa
    | some c =>
      rw [hc] at hfa
      simp only [Option.map_some', Option.mem_def, Option.some.injEq] at hfa
      rw [← hfa]
      rw [← hmap]
  · rw [fetch_stooq_daily, List.filterMap_map]
    rw [length_filterMap_closeV _ (fun r => by cases hr : r.closeV <;>
      simp [Function.comp, hr])]
    exact ((sortByTs_perm resp).filter (fun r => r.closeV.isSome)).length_eq
  · intro out hout
    rw [fetch_yahoo_daily] at hout
    by_cases hre : resp.isEmpty
    · rw [if_pos hre] at hout
      exact absurd hout (by simp)
    · rw [if_neg hre] at hout
      simp only [Except.ok.injEq] at hout
      refine ⟨?_, ?_, ?_⟩
      · rw [← hout, List.pairwise_filterMap]
        have hs := pairwise_sortByTs resp
        refine hs.imp ?_
        intro r s hrs b hb b' hb'
        cases hcr : r.closeV with
        | none => rw [hcr] at hb; simp at hb
        | some c =>
          cases hcs : s.closeV with
          | none => rw [hcs] at hb'; simp at hb'
          | some c' =>
            rw [hcr] at hb
            rw [hcs] at hb'
            simp only [Option.map_some', Option.mem_def, Option.some.injEq] at hb hb'
            rw [← hb, ← hb']
            dsimp only
            simp only [tsLeB, Bool.or_eq_true, Bool.and_eq_true,
              decide_eq_true_eq] at hrs
            rcases hrs with h | ⟨h1, h2⟩
            · exact Or.inl h
            · right
              constructor
              · exact h1
              · simpa using h2
      · intro r hr
        rw [← hout] at hr
        rcases List.mem_filterMap.1 hr with ⟨raw, hraw, hfa⟩
        have hrawmem : raw ∈ resp := (sortByTs_perm resp).mem_iff.1 hraw
        cases hc : raw.closeV with
        | none => rw [hc] at hfa; simp at hfa
        | some c =>
          rw [hc] at hfa
          simp only [Option.map_some', Option.mem_def, Option.some.injEq] at hfa
          rw [← hfa]
          exact List.mem_map.2 ⟨raw, hrawmem, rfl⟩
      · rw [← hout]
        rw [length_filterMap_closeV _ (fun r => by cases hr : r.closeV <;>
          simp [hr])]
        exact ((sortByTs_perm resp).filter (fun r => r.closeV.isSome)).length_eq

/-- Witness for the amended C8 at a concrete two-bar response (bars out of
order, one lacking a close, one with nonzero time-of-day). -/
theorem C8_witness :
    (fetch_stooq_daily [⟨3, 7, none, none, none, some 2, none, none⟩,
        ⟨1, 0, none, none, none, none, none, none⟩,
        ⟨2, 0, none, none, none, some 1, none, none⟩]).Pairwise
      (fun r s => r.day ≤ s.day) ∧
    (∀ out, fetch_yahoo_daily [⟨0, 5, none, none, none, some 1, none, none⟩]
        true = .ok out →
      ∀ r ∈ out, (r.day, r.tod) ∈
        [((0 : Int), (5 : Nat))]) := by
  constructor
  · exact (C8_fetcher_normalization [⟨3, 7, none, none, none, some 2, none, none⟩,
      ⟨1, 0, none, none, none, none, none, none⟩,
      ⟨2, 0, none, none, none, some 1, none, none⟩] false).1
  · intro out hout
    have h := ((C8_fetcher_normalization
      [⟨0, 5, none, none, none, some 1, none, none⟩] true).2.2.2 out hout).2.1
    simpa using h

/-! ## Claim C7 -/

theorem getCol_isSome_iff {df : PdFrame} {c : String} :
    (getCol df c).isSome = true ↔ c ∈ colNames df := by
  rw [getCol]
  cases hf : df.cols.find? (fun x => x.1 = c) with
  | none =>
    simp only [Option.map_none', Option.isSome_none, Bool.false_eq_true,
      false_iff]
    intro hmem
    rcases List.mem_map.1 hmem with ⟨x, hx, hxc⟩
    have := List.find?_eq_none.1 hf x hx
    simp [hxc] at this
  | some x =>
    simp only [Option.map_some', Option.isSome_some, true_iff]
    have hx := List.find?_some hf
    have hmem := List.mem_of_find?_eq_some hf
    simp only [decide_eq_true_eq] at hx
    exact List.mem_map.2 ⟨x, hmem, hx⟩

theorem getCol_cons_ne {n : String} {col : Col} {rest : List (String × Col)}
    {c : String} (h : ¬ n = c) :
    getCol ⟨(n, col) :: rest⟩ c = getCol ⟨rest⟩ c := by
  simp [getCol, List.find?_cons, h]

theorem getCol_of_map_mem (names : List String) (v : String → Col)
    (c : String) (hc : c ∈ names) :
    getCol ⟨names.map (fun n => (n, v n))⟩ c = some (v c) := by
  induction names with
  | nil => simp at hc
  | cons n ns ih =>
    by_cases hn : n = c
    · subst hn
      simp [getCol, List.find?_cons]
    · rw [List.map_cons, getCol_cons_ne hn]
      exact ih (by rcases List.mem_cons.1 hc with rfl | h
                   · exact absurd rfl hn
                   · exact h)

theorem filterMap_getCol_eq_map (df' : PdFrame) :
    ∀ (names : List String), (∀ c ∈ names, c ∈ colNames df') →
      names.filterMap (fun c => (getCol df' c).map (fun col => (c, col))) =
        names.map (fun c => (c, (getCol df' c).getD [])) := by
  intro names
  induction names with
  | nil => intro _; rfl
  | cons c cs ih =>
    intro h
    have hc : (getCol df' c).isSome = true :=
      getCol_isSome_iff.2 (h c (List.mem_cons_self _ _))
    rcases Option.isSome_iff_exists.1 hc with ⟨col, hcol⟩
    rw [List.filterMap_cons, hcol]
    simp only [Option.map_some']
    rw [List.map_cons, ih (fun q hq => h q (List.mem_cons_of_mem _ hq)), hcol]
    rfl

theorem getCol_append_not_mem {df : PdFrame} {c : String} {col : Col}
    (h : c ∉ colNames df) :
    getCol ⟨df.cols ++ [(c, col)]⟩ c = some col := by
  rw [getCol]
  show ((df.cols ++ [(c, col)]).find? (fun x => x.1 = c)).map Prod.snd = _
  rw [List.find?_append]
  have hnone : df.cols.find? (fun x => decide (x.1 = c)) = none := by
    rw [List.find?_eq_none]
    intro x hx
    simp only [decide_eq_true_eq]
    intro hxc
    exact h (List.mem_map.2 ⟨x, hx, hxc⟩)
  rw [hnone]
  simp [List.find?_cons]

/-- The successful canonicalization of any frame carrying all five base
fields: the output has exactly the six canonical columns, with
`adj_close` copied from `close` when the input lacked it. -/
theorem canonicalize_ok (df : PdFrame) (h : ∀ c ∈ baseCols, c ∈ colNames df) :
    ∃ out, _canonicalize_ohlcv df = .ok out ∧
      colNames out = baseCols ++ ["adj_close"] ∧
      ("adj_close" ∉ colNames df → getCol out "adj_close" = getCol df "close") := by
  have hm : (baseCols.filter (fun c => decide (c ∉ colNames df))).isEmpty = true := by
    rw [List.isEmpty_iff, List.filter_eq_nil_iff]
    intro c hc
    simp only [decide_eq_true_eq, Decidable.not_not]
    exact h c hc
  rw [_canonicalize_ohlcv]
  simp only [hm, if_true]
  by_cases hadj : "adj_close" ∈ colNames df
  · rw [if_pos hadj]
    have h6 : ∀ c ∈ baseCols ++ ["adj_close"], c ∈ colNames df := by
      intro c hc
      rcases List.mem_append.1 hc with hc | hc
      · exact h c hc
      · rcases List.mem_singleton.1 hc with rfl
        exact hadj
    refine ⟨_, rfl, ?_, ?_⟩
    · rw [colNames, filterMap_getCol_eq_map df _ h6]
      rw [List.map_map]
      simp [Function.comp_def]
    · intro hno
      exact absurd hadj hno
  · rw [if_neg hadj]
    have hnames' : colNames ⟨df.cols ++ [("adj_close", (getCol df "close").getD [])]⟩ =
        colNames df ++ ["adj_close"] := by
      show (df.cols ++ [("adj_close", (getCol df "close").getD [])]).map Prod.fst = _
      rw [List.map_append]
      rfl
    have h6 : ∀ c ∈ baseCols ++ ["adj_close"],
        c ∈ colNames ⟨df.cols ++ [("adj_close", (getCol df "close").getD [])]⟩ := by
      intro c hc
      rw [hnames']
      rcases List.mem_append.1 hc with hc | hc
      · exact List.mem_append.2 (Or.inl (h c hc))
      · exact List.mem_append.2 (Or.inr hc)
    refine ⟨_, rfl, ?_, ?_⟩
    · rw [colNames, filterMap_getCol_eq_map _ _ h6]
      rw [List.map_map]
      simp [Function.comp_def]
    · intro _
      rw [filterMap_getCol_eq_map _ _ h6]
      rw [getCol_of_map_mem (baseCols ++ ["adj_close"]) _ "adj_close" (by simp)]
      rw [getCol_append_not_mem hadj]
      have hclose : (getCol df "close").isSome = true :=
        getCol_isSome_iff.2 (h "close" (by simp [baseCols]))
      rcases Option.isSome_iff_exists.1 hclose with ⟨col, hcol⟩
      rw [hcol]
      rfl

/-- C7.  `_canonicalize_ohlcv` fails exactly when one of the five base
OHLCV fields is absent, and then reports precisely the (non-empty,
ordered) list of missing fields; on success the output has exactly the
six canonical columns, with `adj_close` synthesized as a copy of `close`
whenever the source lacked it; and the canonicalization of either
fetcher's output always succeeds with all six columns. -/
theorem C7_canonicalize (df : PdFrame) :
    ((∃ m, _canonicalize_ohlcv df = .error m) ↔
      ∃ c ∈ baseCols, c ∉ colNames df) ∧
    (∀ m, _canonicalize_ohlcv df = .error m →
      m = baseCols.filter (fun c => decide (c ∉ colNames df)) ∧ m ≠ []) ∧
    (∀ out, _canonicalize_ohlcv df = .ok out →
      colNames out = baseCols ++ ["adj_close"] ∧
      ("adj_close" ∉ colNames df → getCol out "adj_close" = getCol df "close")) ∧
    (∀ resp : List RawRow, ∃ out,
      _canonicalize_ohlcv (stooqFrame (fetch_stooq_daily resp)) = .ok out ∧
      colNames out = baseCols ++ ["adj_close"]) ∧
    (∀ (resp : List RawRow) (hasAdj : Bool) (rows : List OutRow),
      fetch_yahoo_daily resp hasAdj = .ok rows → ∃ out,
        _canonicalize_ohlcv (yahooFrame rows hasAdj) = .ok out ∧
        colNames out = baseCols ++ ["adj_close"]) := by
  have hmemne : ∀ {c : String} {l : List String}, c ∈ l → l.isEmpty = false := by
    intro c l h
    cases l with
    | nil => simp at h
    | cons a as => rfl
  refine ⟨?_, ?_, ?_, ?_, ?_⟩
  · constructor
    · rintro ⟨m, hm⟩
      by_contra hall
      push_neg at hall
      rcases canonicalize_ok df hall with ⟨out, hout, _, _⟩
      rw [hout] at hm
      exact Except.noConfusion hm
    · rintro ⟨c, hc, hnot⟩
      rw [_canonicalize_ohlcv]
      have hne : (baseCols.filter
          (fun q => decide (q ∉ colNames df))).isEmpty = false :=
        hmemne (List.mem_filter.2 ⟨hc, by simpa using hnot⟩)
      simp only [hne, Bool.false_eq_true, if_false]
      exact ⟨_, rfl⟩
  · intro m hm
    rw [_canonicalize_ohlcv] at hm
    by_cases hne : (baseCols.filter
        (fun q => decide (q ∉ colNames df))).isEmpty = true
    · simp only [hne, if_true] at hm
      exact Except.noConfusion hm
    · have hne' : (baseCols.filter
          (fun q => decide (q ∉ colNames df))).isEmpty = false := by
        cases hb : (baseCols.filter (fun q => decide (q ∉ colNames df))).isEmpty
        · rfl
        · exact absurd hb hne
      simp only [hne', Bool.false_eq_true, if_false, Except.error.injEq] at hm
      refine ⟨hm.symm, ?_⟩
      intro h0
      rw [h0] at hm
      rw [hm] at hne'
      simp at hne'
  · intro out hout
    by_cases hall : ∀ c ∈ baseCols, c ∈ colNames df
    · rcases canonicalize_ok df hall with ⟨out', hout', hnames, hadjval⟩
      rw [hout'] at hout
      rcases Except.ok.inj hout with rfl
      exact ⟨hnames, hadjval⟩
    · exfalso
      push_neg at hall
      rcases hall with ⟨c, hc, hnot⟩
      rw [_canonicalize_ohlcv] at hout
      have hne : (baseCols.filter
          (fun q => decide (q ∉ colNames df))).isEmpty = false :=
        hmemne (List.mem_filter.2 ⟨hc, by simpa using hnot⟩)
      simp only [hne, Bool.false_eq_true, if_false] at hout
      exact Except.noConfusion hout
  · intro resp
    have h : ∀ c ∈ baseCols, c ∈ colNames (stooqFrame (fetch_stooq_daily resp)) := by
      intro c hc
      rw [show colNames (stooqFrame (fetch_stooq_daily resp)) = baseCols from rfl]
      exact hc
    rcases canonicalize_ok _ h with ⟨out, hout, hnames, _⟩
    exact ⟨out, hout, hnames⟩
  · intro resp hasAdj rows _
    cases hasAdj with
    | false =>
      have h : ∀ c ∈ baseCols, c ∈ colNames (yahooFrame rows false) := by
        intro c hc
        rw [show colNames (yahooFrame rows false) = baseCols from rfl]
        exact hc
      rcases canonicalize_ok _ h with ⟨out, hout, hnames, _⟩
      exact ⟨out, hout, hnames⟩
    | true =>
      have h : ∀ c ∈ baseCols, c ∈ colNames (yahooFrame rows true) := by
        intro c hc
        rw [show colNames (yahooFrame rows true) =
          baseCols ++ ["adj_close"] from rfl]
        exact List.mem_append.2 (Or.inl hc)
      rcases canonicalize_ok _ h with ⟨out, hout, hnames, _⟩
      exact ⟨out, hout, hnames⟩

/-- Witness for C7: canonicalizing a frame without `adj_close` synthesizes
it as a copy of `close`. -/
theorem C7_witness :
    getCol sampleOut "adj_close" = getCol sampleFrame "close" :=
  ((C7_canonicalize sampleFrame).2.2.1 sampleOut (by decide)).2 (by decide)

/-! ## Claim C1 -/

/-- C1, counterexample.  The claim says the scenario with prices
`[100, 110, 121]` and weights `[1, 1, 0]` yields the two-entry equity
curve `[1.10, 1.21]` with the initial date dropped; the code returns a
three-entry curve, so the claimed value is wrong. -/
theorem C1_counterexample :
    (run_backtest_fast_daily scenarioPrices scenarioWeights none).map
      (List.map Prod.snd) ≠ Except.ok [(11/10 : ℚ), 121/100] := by
  simp [run_backtest_fast_daily, pandasEmpty, truncFrom, sortDates, insertDate,
    portRets, pctChange, alignRows, shiftFill, rowMulSum, alignedW, cumprod,
    cumprodFrom, scenarioPrices, scenarioWeights, Except.map]

/-- C1, amended.  On prices `[100, 110, 121]` (dates 0,1,2) with weight 1
on the first two decision dates and 0 on the third,
`run_backtest_fast_daily` returns the equity curve `[1.0, 1.10, 1.21]`:
the initial date is retained with equity `1.0` (its undefined returns row
is skipna-summed to portfolio return `0`, so `dropna` removes nothing),
and the rest compounds the realized returns `0.10` and `0.10`. -/
theorem C1_equity_curve :
    run_backtest_fast_daily scenarioPrices scenarioWeights none =
      .ok [(0, 1), (1, 11/10), (2, 121/100)] := by
  simp [run_backtest_fast_daily, pandasEmpty, truncFrom, sortDates, insertDate,
    portRets, pctChange, alignRows, shiftFill, rowMulSum, alignedW, cumprod,
    cumprodFrom, scenarioPrices, scenarioWeights]
  norm_num

/-! ## Structure of the engine's portfolio returns -/

theorem length_pctChange (p : PriceFrame) (ds : List Int) :
    (pctChange p ds).length = ds.length := by
  cases ds with
  | nil => rfl
  | cons d0 tl =>
    simp [pctChange, List.length_zip]

theorem length_alignRows (wf : WeightsFrame) (ds : List Int) :
    (alignRows wf ds).length = ds.length := by
  simp [alignRows]

theorem length_shiftFill (rows : List (String → ℚ)) :
    (shiftFill rows).length = rows.length := by
  cases rows with
  | nil => rfl
  | cons r rs => simp [shiftFill, List.length_dropLast]

theorem length_portRets (p : PriceFrame) (wf : WeightsFrame) (ds : List Int) :
    (portRets p wf ds).length = ds.length := by
  simp [portRets, List.length_zipWith, length_pctChange, length_shiftFill,
    length_alignRows]

theorem getElem_pctChange_zero (p : PriceFrame) {ds : List Int}
    (h : 0 < (pctChange p ds).length) : (pctChange p ds)[0] = none := by
  cases ds with
  | nil => simp [pctChange] at h
  | cons d0 tl => rfl

theorem getElem_pctChange_succ (p : PriceFrame) {ds : List Int} (j : Nat)
    (h : j + 1 < (pctChange p ds).length) :
    (pctChange p ds)[j + 1] =
      some (fun a => p.px (ds.getD (j + 1) 0) a / p.px (ds.getD j 0) a - 1) := by
  cases ds with
  | nil => simp [pctChange] at h
  | cons d0 tl =>
    rw [length_pctChange] at h
    have hj : j < tl.length := by
      simp at h
      omega
    have hj1 : j + 1 < (d0 :: tl).length := by
      simp
      omega
    show (none :: (List.zip (d0 :: tl) tl).map
      (fun dd => some (fun a => p.px dd.2 a / p.px dd.1 a - 1)))[j + 1] = _
    rw [List.getElem_cons_succ, List.getElem_map, List.getElem_zip]
    rw [List.getD_eq_getElem _ _ hj1, List.getD_eq_getElem _ _ (by simp; omega),
      List.getElem_cons_succ]

theorem getElem_shiftFill_zero {rows : List (String → ℚ)}
    (h : 0 < (shiftFill rows).length) : (shiftFill rows)[0] = fun _ => (0 : ℚ) := by
  cases rows with
  | nil => simp [shiftFill] at h
  | cons r rs => rfl

theorem getElem_shiftFill_succ {rows : List (String → ℚ)} (j : Nat)
    (h : j + 1 < (shiftFill rows).length) (hj : j < rows.length) :
    (shiftFill rows)[j + 1] = rows[j] := by
  cases rows with
  | nil => simp [shiftFill] at h
  | cons r rs =>
    rw [length_shiftFill] at h
    show ((fun _ => (0 : ℚ)) :: (r :: rs).dropLast)[j + 1] = _
    rw [List.getElem_cons_succ, List.getElem_dropLast]

theorem getElem_alignRows (wf : WeightsFrame) {ds : List Int} (i : Nat)
    (h : i < (alignRows wf ds).length) (hi : i < ds.length) :
    (alignRows wf ds)[i] = fun a => alignedW wf (ds.getD i 0) a := by
  show (ds.map (fun d a => alignedW wf d a))[i] = _
  rw [List.getElem_map, List.getD_eq_getElem _ _ hi]

/-- The engine's aligned-shifted-multiplied-summed return rows coincide
with the spec-side description `specPortRet`. -/
theorem portRets_eq_range_map (p : PriceFrame) (wf : WeightsFrame)
    (ds : List Int) :
    portRets p wf ds = (List.range ds.length).map (specPortRet p wf ds) := by
  have hlen : (portRets p wf ds).length = ds.length := length_portRets p wf ds
  refine List.ext_getElem (by simp [hlen]) ?_
  intro i h1 h2
  have hi : i < ds.length := by rwa [hlen] at h1
  have hpc : i < (pctChange p ds).length := by rwa [length_pctChange]
  have hsf : i < (shiftFill (alignRows wf ds)).length := by
    rwa [length_shiftFill, length_alignRows]
  rw [List.getElem_map, List.getElem_range]
  show (List.zipWith (rowMulSum p.assets) (pctChange p ds)
    (shiftFill (alignRows wf ds)))[i] = _
  rw [List.getElem_zipWith]
  cases i with
  | zero =>
    rw [getElem_pctChange_zero p hpc]
    rfl
  | succ j =>
    have hja : j < (alignRows wf ds).length := by
      rw [length_alignRows]
      omega
    rw [getElem_pctChange_succ p j hpc,
      getElem_shiftFill_succ j hsf hja,
      getElem_alignRows wf j hja (by omega)]
    rfl

/-- The engine's output, written through `specPortRet`: the curve pairs
the (sorted, truncated) dates with the running products of
`1 + specPortRet`. -/
theorem run_backtest_eq_spec (p : PriceFrame) (wf : WeightsFrame)
    (start : Option Int) (h : pandasEmpty p = false) :
    run_backtest_fast_daily p wf start =
      .ok ((truncFrom start (sortDates p.dates)).zip (cumprod
        (((List.range (truncFrom start (sortDates p.dates)).length).map
          (specPortRet p wf (truncFrom start (sortDates p.dates)))).map
            (fun r => 1 + r)))) := by
  rw [run_backtest_fast_daily, if_neg (by simp [h])]
  show Except.ok ((truncFrom start (sortDates p.dates)).zip (cumprod
    (List.map (fun r => 1 + r)
      (portRets p wf (truncFrom start (sortDates p.dates)))))) = _
  rw [portRets_eq_range_map]

/-! ## Claim C2 -/

/-- C2.  For every non-empty price table, weights matrix, and optional
start date, the engine's equity curve is exactly the compounding of
`specPortRet`: the weights are first aligned to the price table's axes
with absent date/instrument cells read as `0` (weight columns absent from
prices are ignored), then shifted forward one date step, so the weight
recorded at decision date `ds[j]` multiplies the return realized over
`ds[j] → ds[j+1]`, and the first date after shifting carries weight `0`. -/
theorem C2_alignment_and_shift (p : PriceFrame) (wf : WeightsFrame)
    (start : Option Int) (h : pandasEmpty p = false) :
    run_backtest_fast_daily p wf start =
      .ok ((truncFrom start (sortDates p.dates)).zip (cumprod
        (((List.range (truncFrom start (sortDates p.dates)).length).map
          (specPortRet p wf (truncFrom start (sortDates p.dates)))).map
            (fun r => 1 + r)))) :=
  run_backtest_eq_spec p wf start h

/-- Witness for C2 at the scenario frames. -/
theorem C2_witness :
    run_backtest_fast_daily scenarioPrices scenarioWeights none =
      .ok ((truncFrom none (sortDates scenarioPrices.dates)).zip (cumprod
        (((List.range (truncFrom none (sortDates scenarioPrices.dates)).length).map
          (specPortRet scenarioPrices scenarioWeights
            (truncFrom none (sortDates scenarioPrices.dates)))).map
            (fun r => 1 + r)))) :=
  C2_alignment_and_shift scenarioPrices scenarioWeights none rfl

/-! ## Claim C3 -/

theorem insertDate_perm (x : Int) (l : List Int) :
    (insertDate x l).Perm (x :: l) := by
  induction l with
  | nil => exact List.Perm.refl _
  | cons y ys ih =>
    by_cases h : x ≤ y
    · rw [insertDate, if_pos h]
    · rw [insertDate, if_neg h]
      exact (ih.cons y).trans (List.Perm.swap x y ys)

theorem sortDates_perm (l : List Int) : (sortDates l).Perm l := by
  induction l with
  | nil => exact List.Perm.refl _
  | cons x xs ih =>
    rw [sortDates]
    exact (insertDate_perm x (sortDates xs)).trans (ih.cons x)

theorem pairwiseLt_sortDates {l : List Int} (hnd : l.Nodup) :
    (sortDates l).Pairwise (· < ·) := by
  have hs := sorted_sortDates l
  have hn : (sortDates l).Nodup := ((sortDates_perm l).nodup_iff).2 hnd
  exact (hs.and hn).imp (fun h => lt_of_le_of_ne h.1 h.2)

theorem length_cumprodFrom (acc : ℚ) (l : List ℚ) :
    (cumprodFrom acc l).length = l.length := by
  induction l generalizing acc with
  | nil => rfl
  | cons x xs ih => simp [cumprodFrom, ih]

theorem length_cumprod (l : List ℚ) : (cumprod l).length = l.length :=
  length_cumprodFrom 1 l

/-- The `i`-th running product only depends on the first `i + 1`
factors. -/
theorem cumprodFrom_getD_congr :
    ∀ (l₁ l₂ : List ℚ) (acc : ℚ) (i : Nat),
      l₁.take (i + 1) = l₂.take (i + 1) →
      (cumprodFrom acc l₁).getD i 0 = (cumprodFrom acc l₂).getD i 0 := by
  intro l₁
  induction l₁ with
  | nil =>
    intro l₂ acc i hpre
    have : l₂.take (i + 1) = [] := by rw [← hpre]; rfl
    have hl2 : l₂ = [] := by
      cases l₂ with
      | nil => rfl
      | cons y ys => simp [List.take_succ_cons] at this
    rw [hl2]
  | cons x xs ih =>
    intro l₂ acc i hpre
    cases l₂ with
    | nil => simp [List.take_succ_cons] at hpre
    | cons y ys =>
      rw [List.take_succ_cons, List.take_succ_cons, List.cons.injEq] at hpre
      rcases hpre with ⟨rfl, htl⟩
      cases i with
      | zero => rfl
      | succ k =>
        rw [cumprodFrom, cumprodFrom, List.getD_cons_succ, List.getD_cons_succ]
        exact ih ys (acc * x) k htl

/-- `cumprod` only depends on the first `i + 1` factors at index `i`. -/
theorem cumprod_getD_congr (l₁ l₂ : List ℚ) (i : Nat)
    (hpre : l₁.take (i + 1) = l₂.take (i + 1)) :
    (cumprod l₁).getD i 0 = (cumprod l₂).getD i 0 :=
  cumprodFrom_getD_congr l₁ l₂ 1 i hpre

/-- Zeroing the weight row at date `t` leaves every portfolio-return step
whose decision date is not `t` unchanged. -/
theorem specPortRet_zeroRowAt (p : PriceFrame) (wf : WeightsFrame) (t : Int)
    (ds : List Int) (j : Nat) (hjt : ds.getD j 0 ≠ t) :
    specPortRet p (zeroRowAt wf t) ds (j + 1) = specPortRet p wf ds (j + 1) := by
  rw [specPortRet, specPortRet]
  congr 1
  refine List.map_congr_left ?_
  intro a _
  congr 1
  rw [zeroRowAt]
  simp only
  by_cases hc : ds.getD j 0 ∈ wf.dates ∧ a ∈ wf.assets
  · rw [if_pos hc, if_pos hc, if_neg hjt]
  · rw [if_neg hc, if_neg hc]

/-- C3, amended.  For every non-empty price table with duplicate-free
dates, every weights matrix, and every date `t`: the run on the original
matrix and the run on the copy whose weight row at `t` is zeroed produce
curves over the same dates; every equity value at a date `≤ t` is
identical across the two runs; and the per-step realized portfolio
returns differ at most at the single step whose decision date is `t`
(the transition `t → t+1`).  (Equity values strictly after that
transition generally differ too, since compounding carries the changed
step forward — see the counterexample for the original claim.) -/
theorem C3_zeroing_prefix_invariant (p : PriceFrame) (wf : WeightsFrame)
    (t : Int) (hne : pandasEmpty p = false) (hnd : p.dates.Nodup) :
    ∃ curve curve',
      run_backtest_fast_daily p wf none = .ok curve ∧
      run_backtest_fast_daily p (zeroRowAt wf t) none = .ok curve' ∧
      curve.map Prod.fst = curve'.map Prod.fst ∧
      (∀ i : Nat, i < curve.length → i < curve'.length →
        (curve.map Prod.fst).getD i 0 ≤ t →
        curve.getD i (0, 0) = curve'.getD i (0, 0)) ∧
      (∀ i : Nat,
        (portRets p wf (sortDates p.dates)).getD i 0 ≠
          (portRets p (zeroRowAt wf t) (sortDates p.dates)).getD i 0 →
        1 ≤ i ∧ (sortDates p.dates).getD (i - 1) 0 = t) := by
  have htr : truncFrom none (sortDates p.dates) = sortDates p.dates := rfl
  have hrun1 := run_backtest_eq_spec p wf none hne
  have hrun2 := run_backtest_eq_spec p (zeroRowAt wf t) none hne
  rw [htr] at hrun1 hrun2
  have hlt : (sortDates p.dates).Pairwise (· < ·) := pairwiseLt_sortDates hnd
  have hlen1 : (cumprod (((List.range (sortDates p.dates).length).map
      (specPortRet p wf (sortDates p.dates))).map (fun r => 1 + r))).length =
      (sortDates p.dates).length := by
    rw [length_cumprod, List.length_map, List.length_map, List.length_range]
  have hlen2 : (cumprod (((List.range (sortDates p.dates).length).map
      (specPortRet p (zeroRowAt wf t) (sortDates p.dates))).map
        (fun r => 1 + r))).length = (sortDates p.dates).length := by
    rw [length_cumprod, List.length_map, List.length_map, List.length_range]
  have hfst1 := List.map_fst_zip (sortDates p.dates)
    (cumprod (((List.range (sortDates p.dates).length).map
      (specPortRet p wf (sortDates p.dates))).map (fun r => 1 + r))) (by omega)
  have hfst2 := List.map_fst_zip (sortDates p.dates)
    (cumprod (((List.range (sortDates p.dates).length).map
      (specPortRet p (zeroRowAt wf t) (sortDates p.dates))).map
        (fun r => 1 + r))) (by omega)
  refine ⟨_, _, hrun1, hrun2, hfst1.trans hfst2.symm, ?_, ?_⟩
  · intro i hi hi' hle
    have hi1 : i < (sortDates p.dates).length := by
      rw [List.length_zip] at hi
      omega
    rw [hfst1, List.getD_eq_getElem (sortDates p.dates) 0 hi1] at hle
    rw [List.getD_eq_getElem _ _ hi, List.getD_eq_getElem _ _ hi',
      List.getElem_zip, List.getElem_zip, Prod.mk.injEq]
    refine ⟨rfl, ?_⟩
    have hpre : ((((List.range (sortDates p.dates).length).map
        (specPortRet p wf (sortDates p.dates))).map (fun r => 1 + r)).take (i + 1)) =
        ((((List.range (sortDates p.dates).length).map
          (specPortRet p (zeroRowAt wf t) (sortDates p.dates))).map
            (fun r => 1 + r)).take (i + 1)) := by
      rw [← List.map_take, ← List.map_take, ← List.map_take, ← List.map_take,
        List.take_range]
      refine congrArg _ ?_
      refine List.map_congr_left ?_
      intro j hj
      have hji : j < i + 1 := by
        have h := List.mem_range.1 hj
        omega
      cases j with
      | zero => rfl
      | succ k =>
        have hk : k < (sortDates p.dates).length := by omega
        have hkt : (sortDates p.dates).getD k 0 ≠ t := by
          have hklt : (sortDates p.dates)[k] < (sortDates p.dates)[i] :=
            List.pairwise_iff_getElem.1 hlt k i hk hi1 (by omega)
          rw [List.getD_eq_getElem (sortDates p.dates) 0 hk]
          omega
        exact (specPortRet_zeroRowAt p wf t (sortDates p.dates) k hkt).symm
    have hgd := cumprod_getD_congr _ _ i hpre
    rw [List.getD_eq_getElem _ _ (by omega), List.getD_eq_getElem _ _ (by omega)]
      at hgd
    exact hgd
  · intro i hdiff
    rw [portRets_eq_range_map, portRets_eq_range_map] at hdiff
    by_cases hi : i < (sortDates p.dates).length
    · rw [List.getD_eq_getElem _ _ (by simp [hi]),
        List.getD_eq_getElem _ _ (by simp [hi])] at hdiff
      simp only [List.getElem_map, List.getElem_range] at hdiff
      cases i with
      | zero => exact absurd rfl hdiff
      | succ k =>
        refine ⟨by omega, ?_⟩
        by_contra hkt
        exact hdiff (specPortRet_zeroRowAt p wf t (sortDates p.dates) k
          (by simpa using hkt)).symm
    · rw [List.getD_eq_default _ _ (by simp; omega),
        List.getD_eq_default _ _ (by simp; omega)] at hdiff
      exact absurd rfl hdiff

/-- C3, counterexample to the claim as stated.  Zeroing the weight row at
`t = 1` changes the equity value at date 3 (from 1.331 to 1.21), a date
that is neither before `t` nor the transition `t → t+1` (which is date 2):
compounding carries the changed step forward, so the equity curves do not
differ *only* at the transition `t → t+1`. -/
theorem C3_counterexample :
    (run_backtest_fast_daily cexPrices cexWeights none).map
      (List.map Prod.snd) = .ok [1, 11/10, 121/100, 1331/1000] ∧
    (run_backtest_fast_daily cexPrices (zeroRowAt cexWeights 1) none).map
      (List.map Prod.snd) = .ok [1, 11/10, 11/10, 121/100] ∧
    ((1331 : ℚ)/1000 ≠ 121/100) := by
  refine ⟨?_, ?_, by norm_num⟩ <;>
  · simp [run_backtest_fast_daily, pandasEmpty, truncFrom, sortDates, insertDate,
      portRets, pctChange, alignRows, shiftFill, rowMulSum, alignedW, cumprod,
      cumprodFrom, cexPrices, cexWeights, zeroRowAt, Except.map]
    norm_num

/-- Witness for the amended C3 at the concrete 4-date frames with
`t = 1`. -/
theorem C3_witness :
    ∃ curve curve',
      run_backtest_fast_daily cexPrices cexWeights none = .ok curve ∧
      run_backtest_fast_daily cexPrices (zeroRowAt cexWeights 1) none =
        .ok curve' ∧
      curve.map Prod.fst = curve'.map Prod.fst ∧
      (∀ i : Nat, i < curve.length → i < curve'.length →
        (curve.map Prod.fst).getD i 0 ≤ 1 →
        curve.getD i (0, 0) = curve'.getD i (0, 0)) ∧
      (∀ i : Nat,
        (portRets cexPrices cexWeights (sortDates cexPrices.dates)).getD i 0 ≠
          (portRets cexPrices (zeroRowAt cexWeights 1)
            (sortDates cexPrices.dates)).getD i 0 →
        1 ≤ i ∧ (sortDates cexPrices.dates).getD (i - 1) 0 = 1) :=
  C3_zeroing_prefix_invariant cexPrices cexWeights 1 rfl (by decide)

/-! ## Claim C10 -/

/-- C10.  `run_backtest_fast_daily` performs its emptiness check on the
price frame as passed in, before the `start_date` truncation: it fails
exactly when the input frame is empty, and on a non-empty frame whose
dates all lie before `start_date` it succeeds with an empty equity
curve. -/
theorem C10_empty_check (p : PriceFrame) (wf : WeightsFrame)
    (start : Option Int) (s : Int) :
    ((∃ e, run_backtest_fast_daily p wf start = .error e) ↔ pandasEmpty p = true) ∧
    (pandasEmpty p = false → (∀ d ∈ p.dates, d < s) →
      run_backtest_fast_daily p wf (some s) = .ok []) := by
  constructor
  · by_cases h : pandasEmpty p
    · simp [run_backtest_fast_daily, h]
    · simp [run_backtest_fast_daily, h]
  · intro h hall
    have htrunc : truncFrom (some s) (sortDates p.dates) = [] := by
      refine List.filter_eq_nil_iff.2 ?_
      intro d hd
      have := hall d (mem_sortDates.1 hd)
      simp only [decide_eq_true_eq]
      omega
    simp [run_backtest_fast_daily, h, htrunc]

/-- Witness for C10 at the scenario frames with `start_date = 100`, past
the last price date: the run succeeds with an empty curve. -/
theorem C10_witness :
    run_backtest_fast_daily scenarioPrices scenarioWeights (some 100) =
      .ok [] :=
  (C10_empty_check scenarioPrices scenarioWeights (some 100) 100).2 rfl
    (by intro d hd; simp [scenarioPrices] at hd; omega)

end Algo
